import Mathlib

/-
Shallow embedding of cargo-workgraph (src/src/main.rs), a workspace
dependency-cycle detector.  The embedding follows the Rust source closely:

* interior mutability (Cell<State>) on graph nodes is rendered as explicit
  functional state threading: the node list carries the visitation states and
  every operation returns the updated list;
* references into the node vector are rendered by the position the Rust code
  actually reaches: detect_cycle always obtains an inner node by a first-match
  name lookup (nodes.iter().find), so marking that node is rendered as marking
  the first name match of the list; the root node of a walk is the one place
  the Rust code holds a reference into the ORIGINAL vector (not the per-walk
  clone), so the root mark is rendered as an update of the original list;
* the unbounded Rust recursion is rendered with an explicit fuel parameter,
  structurally decreasing, so runs on concrete inputs reduce by evaluation;
  exhausting fuel yields the distinguished error DcError.fuelOut, and the
  panic on an unresolvable dependency edge yields DcError.lookupFail;
* Rust HashSet collection is rendered as a left fold that inserts an element
  unless the set already holds an element in the same hash bucket that
  compares equal.  The derived Hash of Node covers only the name field
  (derivative marks dependencies and state as ignored), so the hash key of a
  Cycle is its list of node names; hash collisions between distinct keys are
  not modelled.  HashSet iteration order, which Rust leaves unspecified, is
  rendered as list order (first insertion first).
-/

namespace CargoWorkgraph

/-- Kind of a dependency edge, mirroring enum DependencyType in the source. -/
inductive DependencyType
  | Regular
  | Dev
  | Build
deriving DecidableEq, Repr

/-- Visitation state of a node, mirroring enum State in the source. -/
inductive State
  | NotProcessed
  | Processed
deriving DecidableEq, Repr

/-- Dependency edge: target crate name plus kind, mirroring struct Dependency. -/
structure Dependency where
  name : String
  dep_type : DependencyType
deriving DecidableEq, Repr

/-- Graph node, mirroring struct Node.  The Cell of the source becomes a plain
State field threaded functionally.  The derived PartialEq and Hash of the
source compare and hash only the name field; the embedding therefore never
compares nodes for full equality, only by name. -/
structure Node where
  name : String
  dependencies : List Dependency
  state : State
deriving DecidableEq, Repr

/-- Node.mark_processed from the source: set the state cell to Processed. -/
def Node.mark_processed (n : Node) : Node :=
  { n with state := State.Processed }

/-- Node.is_processed from the source: the state cell equals Processed. -/
def Node.is_processed (n : Node) : Bool :=
  match n.state with
  | State.Processed => true
  | State.NotProcessed => false

/-- Marking through a reference obtained by nodes.iter().find on a name: the
first node of the list with the given name has its state cell set. -/
def mark_first : List Node → String → List Node
  | [], _ => []
  | n :: rest, nm =>
    if n.name == nm then n.mark_processed :: rest else n :: mark_first rest nm

/-- Cycle record, mirroring struct Cycle(Vec<Node>). -/
structure Cycle where
  nodes : List Node
deriving DecidableEq, Repr

/-- Insertion of a node into a name-sorted list, used to render Vec::sort. -/
def insert_by_name (n : Node) : List Node → List Node
  | [] => [n]
  | m :: rest =>
    if n.name < m.name then n :: m :: rest else m :: insert_by_name n rest

/-- Sorting a node vector by the Ord instance of Node (name order). -/
def sort_nodes : List Node → List Node
  | [] => []
  | n :: rest => insert_by_name n (sort_nodes rest)

/-- Rendering of the expression self.0.clone().sort() of the source: Vec::sort
sorts a temporary clone in place and returns the unit value, so the value of
the whole expression is unit; the sorted list is discarded. -/
def clone_sort_result (v : List Node) : Unit :=
  let _sorted := sort_nodes v
  ()

/-- PartialEq for Cycle from the source: compare the RESULTS of sorting the two
cloned node vectors.  Vec::sort returns unit, so both sides are unit. -/
def cycleEq (a b : Cycle) : Bool :=
  clone_sort_result a.nodes == clone_sort_result b.nodes

/-- Hash key of a Cycle under the derived Hash instances: the name field is the
only hashed field of Node, so a cycle hashes as its sequence of names. -/
def cycle_hash_key (c : Cycle) : List String :=
  c.nodes.map (fun n => n.name)

/-- HashSet insertion for Cycle values: the probe finds the bucket by hash and
compares with eq inside it, so an element is dropped only when an element with
the same hash key already compares equal. -/
def hashset_insert_cycle (acc : List Cycle) (c : Cycle) : List Cycle :=
  if acc.any (fun c0 => cycle_hash_key c0 == cycle_hash_key c && cycleEq c0 c) then
    acc
  else
    acc ++ [c]

/-- Collecting an iterator of cycles into a HashSet, as the deduplication step
of detect_cycles_all does. -/
def hashset_collect_cycles (l : List Cycle) : List Cycle :=
  l.foldl hashset_insert_cycle []

/-- Raw crate record supplied by the loader, mirroring struct CrateMetadata.
Only the parts of the manifest the program reads are kept: the package name
and the key sets of the two dependency tables. -/
structure CrateMetadata where
  name : String
  dependencies : List String
  dev_dependencies : List String
deriving DecidableEq, Repr

/-- HashSet insertion for Dependency values: full (name, kind) equality. -/
def hashset_insert_dep (acc : List Dependency) (d : Dependency) : List Dependency :=
  if d ∈ acc then acc else acc ++ [d]

/-- Collecting dependency edges into a HashSet, dropping duplicate
(name, kind) pairs and keeping first insertions. -/
def hashset_from_list (l : List Dependency) : List Dependency :=
  l.foldl hashset_insert_dep []

/-- Edge set built for one crate inside build_nodes: regular and dev
dependency names become typed edges, edges whose target is not a workspace
crate name are filtered out, and the remainder is collected into a set. -/
def build_deps (crate_names : List String) (cm : CrateMetadata) : List Dependency :=
  let dependencies_regular :=
    cm.dependencies.map (fun n => Dependency.mk n DependencyType.Regular)
  let dependencies_dev :=
    cm.dev_dependencies.map (fun n => Dependency.mk n DependencyType.Dev)
  hashset_from_list
    ((dependencies_regular ++ dependencies_dev).filter
      (fun dep => crate_names.any (fun n => n == dep.name)))

/-- build_nodes from the source: every crate becomes a node carrying its
filtered edge set, and every state cell starts out as NotProcessed. -/
def build_nodes (all_crates : List CrateMetadata) : List Node :=
  let crate_names := all_crates.map (fun c => c.name)
  all_crates.map (fun cm => Node.mk cm.name (build_deps crate_names cm) State.NotProcessed)

/-- Abnormal outcomes of a traversal: fuelOut is the artifact of the explicit
fuel parameter (the Rust recursion has no such bound), lookupFail is the panic
raised when a dependency edge does not resolve to a node of the list. -/
inductive DcError
  | fuelOut
  | lookupFail (parent : String) (dep : String)
deriving DecidableEq, Repr

/-- Tests whether a traversal outcome is the unresolved-dependency panic. -/
def is_lookup_fail {α : Type} : Except DcError α → Bool
  | Except.error (DcError.lookupFail _ _) => true
  | _ => false

/-- Tests whether a traversal outcome is fuel exhaustion. -/
def is_fuel_out {α : Type} : Except DcError α → Bool
  | Except.error DcError.fuelOut => true
  | _ => false

/-- Fold over the eligible dependency edges of a node, mirroring the fold at
the end of detect_cycle: each edge is resolved by a first-match name lookup in
the shared node list (panicking when absent), the recursive call runs on a
clone of the path buffer, marks thread through to the next edge, and the cycle
lists concatenate. -/
def detect_cycle_deps_with
    (rec_fn : List Node → List Node → Node → Except DcError (List Cycle × List Node)) :
    List Dependency → List Node → List Node → String →
      Except DcError (List Cycle × List Node)
  | [], nodes, _, _ => Except.ok ([], nodes)
  | dep :: rest, nodes, node_buffer, parent =>
    match nodes.find? (fun n => n.name == dep.name) with
    | none => Except.error (DcError.lookupFail parent dep.name)
    | some dep_node =>
      match rec_fn nodes node_buffer dep_node with
      | Except.error e => Except.error e
      | Except.ok (cycles1, nodes1) =>
        match detect_cycle_deps_with rec_fn rest nodes1 node_buffer parent with
        | Except.error e => Except.error e
        | Except.ok (cycles2, nodes2) => Except.ok (cycles1 ++ cycles2, nodes2)

/-- Body of detect_cycle from the source, parameterized by the function used
for recursive descent.  If the node is processed and a node of the same name
sits in the path buffer, the buffer is drained in full into one Cycle.
Otherwise the node is marked (the first name match of the shared list, which
is the object the caller found), the edge filter is chosen by whether the path
buffer is empty (empty: all kinds pass; otherwise Dev edges are dropped), the
marked node is pushed, and the eligible edges are folded over. -/
def detect_cycle_step
    (rec_fn : List Node → List Node → Node → Except DcError (List Cycle × List Node))
    (nodes : List Node) (node_buffer : List Node) (node : Node) :
    Except DcError (List Cycle × List Node) :=
  if node.is_processed && node_buffer.any (fun b => b.name == node.name) then
    Except.ok ([Cycle.mk node_buffer], nodes)
  else
    let keep : Dependency → Bool :=
      if node_buffer.isEmpty then fun _ => true
      else fun dep => dep.dep_type != DependencyType.Dev
    let nodes' := mark_first nodes node.name
    let node_buffer' := node_buffer ++ [node.mark_processed]
    detect_cycle_deps_with rec_fn (node.dependencies.filter keep) nodes' node_buffer' node.name

/-- detect_cycle from the source with an explicit fuel bound: each unit of
fuel pays for one recursive invocation of detect_cycle. -/
def detect_cycle : Nat → List Node → List Node → Node →
    Except DcError (List Cycle × List Node)
  | 0 => fun _ _ _ => Except.error DcError.fuelOut
  | fuel + 1 => detect_cycle_step (detect_cycle fuel)

/-- One root walk of detect_cycles_all: the call
detect_cycle(&(nodes.clone()), &mut Vec::new(), node) with node the r-th entry
of the ORIGINAL list.  The walk traverses the clone, but the root reference
aliases the original vector, so the root mark lands in the original list (the
returned list), while the inner walk never sees that mark: the clone was taken
before it.  The path buffer starts empty, so the cut test of the root frame is
vacuous and the edge filter of the root frame passes every kind. -/
def detect_cycle_root (fuel : Nat) (orig_nodes : List Node) (r : Nat) :
    Except DcError (List Cycle × List Node) :=
  match orig_nodes.get? r with
  | none => Except.ok ([], orig_nodes)
  | some root =>
    if root.is_processed && ([] : List Node).any (fun b => b.name == root.name) then
      Except.ok ([Cycle.mk []], orig_nodes)
    else
      let orig_nodes' := orig_nodes.set r root.mark_processed
      match detect_cycle_deps_with (detect_cycle fuel) root.dependencies
          orig_nodes [root.mark_processed] root.name with
      | Except.error e => Except.error e
      | Except.ok (cycles, _clone_final) => Except.ok (cycles, orig_nodes')

/-- Iteration of detect_cycles_all over every node as a root, threading the
original list (whose root entries get marked one by one) from walk to walk:
the clone taken by a later walk starts from exactly this threaded list. -/
def detect_cycles_go (fuel : Nat) (orig_nodes : List Node) (r : Nat) :
    Nat → Except DcError (List Cycle × List Node)
  | 0 => Except.ok ([], orig_nodes)
  | count + 1 =>
    match detect_cycle_root fuel orig_nodes r with
    | Except.error e => Except.error e
    | Except.ok (cycles1, orig') =>
      match detect_cycles_go fuel orig' (r + 1) count with
      | Except.error e => Except.error e
      | Except.ok (cycles2, orig'') => Except.ok (cycles1 ++ cycles2, orig'')

/-- detect_cycles_all from the source: walk from every node as a root and
collect the discovered cycles into a HashSet. -/
def detect_cycles_all (fuel : Nat) (nodes : List Node) : Except DcError (List Cycle) :=
  match detect_cycles_go fuel nodes 0 nodes.length with
  | Except.error e => Except.error e
  | Except.ok (cycles, _) => Except.ok (hashset_collect_cycles cycles)

/-- Presentation gate of print_cycles: only cycles with at least two entries
are rendered (the source asks in a comment why single node cycles appear). -/
def print_cycles_kept (cycles : List Cycle) : List Cycle :=
  cycles.filter (fun c => decide (2 ≤ c.nodes.length))

/-- Manifest situation of one scanned subdirectory, as read_crates sees it:
no manifest file, a manifest that Manifest::from_path fails to parse, or a
parsed manifest carrying an optional package name and the two dependency
tables. -/
inductive ManifestFile
  | absent
  | unparseable
  | parsed (package_name : Option String) (dependencies : List String)
      (dev_dependencies : List String)
deriving DecidableEq, Repr

/-- One entry of the scanned root directory. -/
structure DirEntry where
  dir_name : String
  manifest : ManifestFile
deriving DecidableEq, Repr

/-- Manifest path reported by the panic of read_crates. -/
def manifest_path_of (e : DirEntry) : String :=
  e.dir_name ++ "/Cargo.toml"

/-- Abnormal outcomes of read_crates: the io error of fs::read_dir propagated
by the question mark operator, or the panic for a parsed manifest without a
package section. -/
inductive ReadError
  | io_error (msg : String)
  | missing_package (manifest_path : String)
deriving DecidableEq, Repr

/-- Entry-by-entry processing of read_crates: entries without a manifest file
and entries whose manifest fails to parse are dropped by the two filter_map
stages; a parsed manifest without a package name panics with its path; the
rest become crate records in directory order. -/
def read_crates_go : List DirEntry → Except ReadError (List CrateMetadata)
  | [] => Except.ok []
  | e :: rest =>
    match e.manifest with
    | ManifestFile.absent => read_crates_go rest
    | ManifestFile.unparseable => read_crates_go rest
    | ManifestFile.parsed none _ _ =>
      Except.error (ReadError.missing_package (manifest_path_of e))
    | ManifestFile.parsed (some name) deps dev_deps =>
      match read_crates_go rest with
      | Except.error err => Except.error err
      | Except.ok crates => Except.ok (CrateMetadata.mk name deps dev_deps :: crates)

/-- read_crates from the source over an abstract directory listing: a failing
fs::read_dir aborts at once with the io error, otherwise the entries are
processed in order. -/
def read_crates (listing : Except String (List DirEntry)) :
    Except ReadError (List CrateMetadata) :=
  match listing with
  | Except.error e => Except.error (ReadError.io_error e)
  | Except.ok entries => read_crates_go entries

/-- Tests whether a directory entry carries a parsed manifest without a
package name, the situation that panics inside read_crates. -/
def missing_name (e : DirEntry) : Bool :=
  match e.manifest with
  | ManifestFile.parsed none _ _ => true
  | _ => false

/-- Name projection of a traversal result, for readable statements: each cycle
becomes its list of member names. -/
def cycles_names (r : Except DcError (List Cycle)) :
    Except DcError (List (List String)) :=
  r.map (List.map (fun c => c.nodes.map (fun n => n.name)))

/-- Number of distinct node names of a graph. -/
def distinct_names (nodes : List Node) : Nat :=
  (nodes.map (fun n => n.name)).dedup.length

/-- Closedness invariant of a graph: every dependency edge of every node
resolves by name to a node of the list. -/
def closed_graph (nodes : List Node) : Prop :=
  ∀ n ∈ nodes, ∀ d ∈ n.dependencies, ∃ m ∈ nodes, m.name = d.name

/-- Evolution of one node under traversal: name and edges are untouched and
the state cell can only move towards Processed. -/
def node_evolve (x y : Node) : Prop :=
  x.name = y.name ∧ x.dependencies = y.dependencies ∧
    (x.state = State.Processed → y.state = State.Processed)

/-- Pointwise evolution of a node list under traversal. -/
def evolves : List Node → List Node → Prop
  | [], [] => True
  | x :: xs, y :: ys => node_evolve x y ∧ evolves xs ys
  | _, _ => False

/-- Cut test of detect_cycle for one node against a path buffer: processed and
a buffer entry of the same name. -/
def cut_ready (buf : List Node) (n : Node) : Bool :=
  n.is_processed && buf.any (fun b => b.name == n.name)

/-- Number of nodes of the list that do not yet pass the cut test: the
termination measure of a walk. -/
def pending (nodes buf : List Node) : Nat :=
  nodes.countP (fun n => !cut_ready buf n)

/-- Workspace fixture: two crates that regularly depend on each other. -/
def crates_ab : List CrateMetadata :=
  [CrateMetadata.mk "A" ["B"] [], CrateMetadata.mk "B" ["A"] []]

/-- Workspace fixture: a two-crate loop plus a third crate with regular edges
into both loop members. -/
def crates_abc : List CrateMetadata :=
  [CrateMetadata.mk "A" ["B"] [], CrateMetadata.mk "B" ["A"] [],
   CrateMetadata.mk "C" ["A", "B"] []]

/-- Workspace fixture: A has only a dev edge to B, B regularly depends on C,
C regularly depends on A. -/
def crates_dev : List CrateMetadata :=
  [CrateMetadata.mk "A" [] ["B"], CrateMetadata.mk "B" ["C"] [],
   CrateMetadata.mk "C" ["A"] []]

/-- Workspace fixture: a single crate depending on itself. -/
def crates_self : List CrateMetadata :=
  [CrateMetadata.mk "A" ["A"] []]

/-- Name of a marked node is unchanged. -/
theorem mark_processed_name (n : Node) : n.mark_processed.name = n.name := rfl

/-- Dependencies of a marked node are unchanged. -/
theorem mark_processed_dependencies (n : Node) :
    n.mark_processed.dependencies = n.dependencies := rfl

/-- State of a marked node is Processed. -/
theorem mark_processed_state (n : Node) : n.mark_processed.state = State.Processed := rfl

/-- A marked node tests as processed. -/
theorem mark_processed_is_processed (n : Node) : n.mark_processed.is_processed = true := rfl

/-- The processed test is equivalent to the state equation. -/
theorem is_processed_iff (n : Node) :
    n.is_processed = true ↔ n.state = State.Processed := by
  cases h : n.state <;> simp [Node.is_processed, h]

/-- Node evolution is reflexive. -/
theorem node_evolve_refl (n : Node) : node_evolve n n :=
  ⟨rfl, rfl, fun h => h⟩

/-- Node evolution is transitive. -/
theorem node_evolve_trans {a b c : Node} (h1 : node_evolve a b) (h2 : node_evolve b c) :
    node_evolve a c :=
  ⟨h1.1.trans h2.1, h1.2.1.trans h2.2.1, fun h => h2.2.2 (h1.2.2 h)⟩

/-- Marking a node is an evolution step. -/
theorem node_evolve_mark (n : Node) : node_evolve n n.mark_processed :=
  ⟨rfl, rfl, fun _ => rfl⟩

/-- List evolution is reflexive. -/
theorem evolves_refl : ∀ l : List Node, evolves l l
  | [] => trivial
  | _ :: xs => ⟨node_evolve_refl _, evolves_refl xs⟩

/-- List evolution relates only lists of matching shape, nil case. -/
theorem evolves_nil_iff : ∀ {b : List Node}, evolves [] b → b = []
  | [], _ => rfl
  | _ :: _, h => absurd h (fun h0 => h0)

/-- List evolution relates only lists of matching shape, cons case. -/
theorem evolves_cons_iff {x : Node} {xs b : List Node} (h : evolves (x :: xs) b) :
    ∃ y ys, b = y :: ys ∧ node_evolve x y ∧ evolves xs ys := by
  cases b with
  | nil => exact absurd h (fun h0 => h0)
  | cons y ys => exact ⟨y, ys, rfl, h.1, h.2⟩

/-- List evolution is transitive. -/
theorem evolves_trans : ∀ {a b c : List Node}, evolves a b → evolves b c → evolves a c := by
  intro a
  induction a with
  | nil =>
    intro b c hab hbc
    cases evolves_nil_iff hab
    cases evolves_nil_iff hbc
    exact trivial
  | cons x xs ih =>
    intro b c hab hbc
    obtain ⟨y, ys, rfl, hxy, hxys⟩ := evolves_cons_iff hab
    obtain ⟨z, zs, rfl, hyz, hyzs⟩ := evolves_cons_iff hbc
    exact ⟨node_evolve_trans hxy hyz, ih hxys hyzs⟩

/-- Marking the first name match of a list is an evolution of the list. -/
theorem mark_first_evolves : ∀ (nodes : List Node) (nm : String),
    evolves nodes (mark_first nodes nm)
  | [], _ => trivial
  | n :: rest, nm => by
    by_cases h : (n.name == nm) = true
    · simp only [mark_first, h, if_true]
      exact ⟨node_evolve_mark n, evolves_refl rest⟩
    · simp only [mark_first, h, if_false, Bool.false_eq_true]
      exact ⟨node_evolve_refl n, mark_first_evolves rest nm⟩

/-- Marking one position of a list is an evolution of the list. -/
theorem set_mark_evolves : ∀ (nodes : List Node) (r : Nat) (root : Node),
    nodes.get? r = some root → evolves nodes (nodes.set r root.mark_processed)
  | [], _, _, h => by simp at h
  | n :: rest, 0, root, h => by
    simp only [List.get?] at h
    cases h
    exact ⟨node_evolve_mark n, evolves_refl rest⟩
  | n :: rest, r + 1, root, h => by
    simp only [List.get?] at h
    exact ⟨node_evolve_refl n, set_mark_evolves rest r root h⟩

/-- Evolution preserves the name sequence. -/
theorem evolves_names : ∀ {a b : List Node}, evolves a b →
    a.map (fun n => n.name) = b.map (fun n => n.name) := by
  intro a
  induction a with
  | nil => intro b h; cases evolves_nil_iff h; rfl
  | cons x xs ih =>
    intro b h
    obtain ⟨y, ys, rfl, hxy, hxys⟩ := evolves_cons_iff h
    simp only [List.map_cons, hxy.1, ih hxys]

/-- Evolution preserves the length. -/
theorem evolves_length {a b : List Node} (h : evolves a b) : a.length = b.length := by
  have := congrArg List.length (evolves_names h)
  simpa using this

/-- Every member of an evolved list evolves from some member of the source. -/
theorem evolves_mem_back : ∀ {a b : List Node}, evolves a b →
    ∀ {n : Node}, n ∈ b → ∃ m ∈ a, node_evolve m n := by
  intro a
  induction a with
  | nil => intro b h n hn; cases evolves_nil_iff h; simp at hn
  | cons x xs ih =>
    intro b h n hn
    obtain ⟨y, ys, rfl, hxy, hxys⟩ := evolves_cons_iff h
    rcases List.mem_cons.mp hn with rfl | hn
    · exact ⟨x, List.mem_cons_self x xs, hxy⟩
    · obtain ⟨m, hm, hme⟩ := ih hxys hn
      exact ⟨m, List.mem_cons_of_mem x hm, hme⟩

/-- Every member of the source list evolves into some member of the target. -/
theorem evolves_mem_forward : ∀ {a b : List Node}, evolves a b →
    ∀ {m : Node}, m ∈ a → ∃ n ∈ b, node_evolve m n := by
  intro a
  induction a with
  | nil => intro b h m hm; simp at hm
  | cons x xs ih =>
    intro b h m hm
    obtain ⟨y, ys, rfl, hxy, hxys⟩ := evolves_cons_iff h
    rcases List.mem_cons.mp hm with rfl | hm
    · exact ⟨y, List.mem_cons_self y ys, hxy⟩
    · obtain ⟨n, hn, hne⟩ := ih hxys hm
      exact ⟨n, List.mem_cons_of_mem y hn, hne⟩

/-- Evolution preserves resolvability of a name. -/
theorem evolves_resolvable {a b : List Node} (h : evolves a b) {s : String}
    (hr : ∃ m ∈ a, m.name = s) : ∃ m ∈ b, m.name = s := by
  obtain ⟨m, hm, hname⟩ := hr
  obtain ⟨n, hn, hne⟩ := evolves_mem_forward h hm
  exact ⟨n, hn, hne.1 ▸ hname⟩

/-- Evolution preserves graph closedness. -/
theorem evolves_closed {a b : List Node} (h : evolves a b) (hc : closed_graph a) :
    closed_graph b := by
  intro n hn d hd
  obtain ⟨m, hm, hme⟩ := evolves_mem_back h hn
  have hd0 : d ∈ m.dependencies := hme.2.1 ▸ hd
  exact evolves_resolvable h (hc m hm d hd0)

/-- A resolvable name is found by the first-match lookup. -/
theorem find_name_some_of_exists (nodes : List Node) (s : String)
    (h : ∃ m ∈ nodes, m.name = s) :
    ∃ m, nodes.find? (fun n => n.name == s) = some m := by
  have : (nodes.find? (fun n => n.name == s)).isSome := by
    rw [List.find?_isSome]
    obtain ⟨m, hm, hname⟩ := h
    exact ⟨m, hm, by simp [hname]⟩
  exact Option.isSome_iff_exists.mp this

/-- A first-match lookup result is also found when looking up its own name. -/
theorem find_self_name {nodes : List Node} {s : String} {m : Node}
    (h : nodes.find? (fun n => n.name == s) = some m) :
    nodes.find? (fun n => n.name == m.name) = some m := by
  have hname : m.name = s := by
    have := List.find?_some h
    simpa [beq_iff_eq] using this
  subst hname
  exact h

/-- Growing the buffer cannot unready a node for the cut. -/
theorem cut_ready_append {buf : List Node} {n : Node} (l : List Node)
    (h : cut_ready buf n = true) : cut_ready (buf ++ l) n = true := by
  simp only [cut_ready, Bool.and_eq_true, List.any_append, Bool.or_eq_true] at *
  exact ⟨h.1, Or.inl h.2⟩

/-- Node evolution cannot unready a node for the cut. -/
theorem cut_ready_evolve {buf : List Node} {m n : Node} (he : node_evolve m n)
    (h : cut_ready buf m = true) : cut_ready (buf) n = true := by
  simp only [cut_ready, Bool.and_eq_true] at *
  refine ⟨?_, ?_⟩
  · rw [is_processed_iff] at *
    exact he.2.2 h.1
  · have := h.2
    rw [← he.1]
    exact this

/-- Pending count of the empty graph. -/
theorem pending_nil (buf : List Node) : pending [] buf = 0 := rfl

/-- Pending count over a cons cell. -/
theorem pending_cons (n : Node) (rest buf : List Node) :
    pending (n :: rest) buf =
      pending rest buf + if cut_ready buf n then 0 else 1 := by
  simp only [pending, List.countP_cons]
  cases h : cut_ready buf n <;> simp [h]

/-- Pending count never exceeds the graph size. -/
theorem pending_le_length (nodes buf : List Node) : pending nodes buf ≤ nodes.length :=
  List.countP_le_length _

/-- Growing the buffer cannot increase the pending count. -/
theorem pending_append_le : ∀ (nodes : List Node) (buf l : List Node),
    pending nodes (buf ++ l) ≤ pending nodes buf
  | [], _, _ => Nat.le_refl _
  | n :: rest, buf, l => by
    rw [pending_cons, pending_cons]
    have htail := pending_append_le rest buf l
    by_cases h : cut_ready buf n = true
    · rw [cut_ready_append l h, h]
      simpa using htail
    · have h0 : cut_ready buf n = false := by
        cases hh : cut_ready buf n
        · rfl
        · exact absurd hh h
      rw [h0]
      cases hh : cut_ready (buf ++ l) n <;> simp <;> omega

/-- Evolution cannot increase the pending count. -/
theorem pending_anti_evolves : ∀ {a b : List Node}, evolves a b →
    ∀ buf, pending b buf ≤ pending a buf := by
  intro a
  induction a with
  | nil =>
    intro b h buf
    cases evolves_nil_iff h
    exact Nat.le_refl _
  | cons x xs ih =>
    intro b h buf
    obtain ⟨y, ys, rfl, hxy, hxys⟩ := evolves_cons_iff h
    rw [pending_cons, pending_cons]
    have htail := ih hxys buf
    by_cases hx : cut_ready buf x = true
    · rw [hx, cut_ready_evolve hxy hx]
      simpa using htail
    · have hx0 : cut_ready buf x = false := by
        cases hh : cut_ready buf x
        · rfl
        · exact absurd hh hx
      rw [hx0]
      cases hy : cut_ready buf y <;> simp <;> omega

/-- Marking keeps the list length. -/
theorem mark_first_length : ∀ (nodes : List Node) (nm : String),
    (mark_first nodes nm).length = nodes.length
  | [], _ => rfl
  | n :: rest, nm => by
    by_cases h : (n.name == nm) = true
    · simp [mark_first, h]
    · simp [mark_first, h, mark_first_length rest nm]

/-- Key decrease property of a non-cut visit: marking the first name match of
the visited node and pushing the marked node onto the buffer strictly lowers
the pending count, because the visited entry flips to cut-ready. -/
theorem pending_mark_push_lt :
    ∀ (nodes : List Node) (buf : List Node) (node : Node),
      nodes.find? (fun n => n.name == node.name) = some node →
      cut_ready buf node = false →
      pending (mark_first nodes node.name) (buf ++ [node.mark_processed]) <
        pending nodes buf
  | [], _, _, hfind, _ => by simp at hfind
  | h :: rest, buf, node, hfind, hcut => by
    by_cases hb : (h.name == node.name) = true
    · have hsome : (h :: rest).find? (fun n => n.name == node.name) = some h :=
        List.find?_cons_of_pos _ hb
      rw [hsome] at hfind
      cases hfind
      simp only [mark_first, hb, if_true]
      rw [pending_cons, pending_cons]
      have hready : cut_ready (buf ++ [h.mark_processed]) h.mark_processed = true := by
        simp [cut_ready, mark_processed_is_processed, List.any_append]
      rw [hready, hcut]
      have htail := pending_append_le rest buf [h.mark_processed]
      simp only [if_pos rfl, if_neg (by simp : ¬ (false = true)), if_true]
      omega
    · have hskip : (h :: rest).find? (fun n => n.name == node.name) = rest.find? _ :=
        List.find?_cons_of_neg _ (by simp [hb])
      rw [hskip] at hfind
      have hbf : (h.name == node.name) = false := by
        cases hh : h.name == node.name
        · rfl
        · exact absurd hh hb
      simp only [mark_first, hbf, Bool.false_eq_true, if_false]
      rw [pending_cons, pending_cons]
      have htail := pending_mark_push_lt rest buf node hfind hcut
      by_cases hh : cut_ready buf h = true
      · rw [hh, cut_ready_append [node.mark_processed] hh]
        omega
      · have hh0 : cut_ready buf h = false := by
          cases hx : cut_ready buf h
          · rfl
          · exact absurd hx hh
        rw [hh0]
        cases hx : cut_ready (buf ++ [node.mark_processed]) h <;> simp <;> omega

/-- Dependency fold preserves evolution of the threaded node list, given the
recursive callee does. -/
theorem deps_with_evolves
    (f : List Node → List Node → Node → Except DcError (List Cycle × List Node))
    (hf : ∀ nodes buf node cs ns, f nodes buf node = Except.ok (cs, ns) → evolves nodes ns) :
    ∀ (deps : List Dependency) (nodes buf : List Node) (p : String)
      (cs : List Cycle) (ns : List Node),
      detect_cycle_deps_with f deps nodes buf p = Except.ok (cs, ns) → evolves nodes ns
  | [], nodes, _, _, _, _, h => by
    simp only [detect_cycle_deps_with, Except.ok.injEq, Prod.mk.injEq] at h
    rw [← h.2]
    exact evolves_refl nodes
  | dep :: rest, nodes, buf, p, cs, ns, h => by
    simp only [detect_cycle_deps_with] at h
    cases hfind : nodes.find? (fun n => n.name == dep.name) with
    | none =>
      rw [hfind] at h
      exact Except.noConfusion h
    | some dep_node =>
      rw [hfind] at h
      dsimp only at h
      cases hcall : f nodes buf dep_node with
      | error e =>
        rw [hcall] at h
        exact Except.noConfusion h
      | ok pr =>
        obtain ⟨cs1, ns1⟩ := pr
        rw [hcall] at h
        dsimp only at h
        cases hrec : detect_cycle_deps_with f rest ns1 buf p with
        | error e =>
          rw [hrec] at h
          exact Except.noConfusion h
        | ok pr2 =>
          obtain ⟨cs2, ns2⟩ := pr2
          rw [hrec] at h
          dsimp only at h
          simp only [Except.ok.injEq, Prod.mk.injEq] at h
          rw [← h.2]
          exact evolves_trans (hf nodes buf dep_node cs1 ns1 hcall)
            (deps_with_evolves f hf rest ns1 buf p cs2 ns2 hrec)

/-- One detect_cycle step preserves evolution of the threaded node list, given
the recursive callee does. -/
theorem step_evolves
    (f : List Node → List Node → Node → Except DcError (List Cycle × List Node))
    (hf : ∀ nodes buf node cs ns, f nodes buf node = Except.ok (cs, ns) → evolves nodes ns)
    (nodes buf : List Node) (node : Node) (cs : List Cycle) (ns : List Node)
    (h : detect_cycle_step f nodes buf node = Except.ok (cs, ns)) : evolves nodes ns := by
  by_cases hcut : (node.is_processed && buf.any (fun b => b.name == node.name)) = true
  · simp only [detect_cycle_step, hcut, if_true, Except.ok.injEq, Prod.mk.injEq] at h
    rw [← h.2]
    exact evolves_refl nodes
  · simp only [detect_cycle_step, hcut, if_false, Bool.false_eq_true] at h
    exact evolves_trans (mark_first_evolves nodes node.name)
      (deps_with_evolves f hf _ _ _ _ cs ns h)

/-- Successful detect_cycle runs only evolve the node list: names and edges
are untouched and state cells only move towards Processed. -/
theorem detect_cycle_evolves :
    ∀ (fuel : Nat) (nodes buf : List Node) (node : Node) (cs : List Cycle) (ns : List Node),
      detect_cycle fuel nodes buf node = Except.ok (cs, ns) → evolves nodes ns
  | 0, _, _, _, _, _, h => Except.noConfusion h
  | fuel + 1, nodes, buf, node, cs, ns, h =>
    step_evolves (detect_cycle fuel) (detect_cycle_evolves fuel) nodes buf node cs ns h

/-- Dependency fold never raises the unresolved-dependency panic when the
graph is closed and the folded edges resolve, given the recursive callee never
does on a closed graph. -/
theorem deps_with_no_lf
    (f : List Node → List Node → Node → Except DcError (List Cycle × List Node))
    (hfe : ∀ nodes buf node cs ns, f nodes buf node = Except.ok (cs, ns) → evolves nodes ns)
    (hf : ∀ nodes buf node, closed_graph nodes →
      (∀ d ∈ node.dependencies, ∃ m ∈ nodes, m.name = d.name) →
      is_lookup_fail (f nodes buf node) = false) :
    ∀ (deps : List Dependency) (nodes buf : List Node) (p : String),
      closed_graph nodes → (∀ d ∈ deps, ∃ m ∈ nodes, m.name = d.name) →
      is_lookup_fail (detect_cycle_deps_with f deps nodes buf p) = false
  | [], nodes, _, _, _, _ => rfl
  | dep :: rest, nodes, buf, p, hc, hr => by
    obtain ⟨m, hm⟩ :=
      find_name_some_of_exists nodes dep.name (hr dep (List.mem_cons_self dep rest))
    simp only [detect_cycle_deps_with, hm]
    have hmem : m ∈ nodes := List.mem_of_find?_eq_some hm
    cases hcall : f nodes buf m with
    | error e =>
      dsimp only
      have := hf nodes buf m hc (fun d hd => hc m hmem d hd)
      rw [hcall] at this
      exact this
    | ok pr =>
      obtain ⟨cs1, ns1⟩ := pr
      dsimp only
      have hev : evolves nodes ns1 := hfe nodes buf m cs1 ns1 hcall
      have hrec := deps_with_no_lf f hfe hf rest ns1 buf p (evolves_closed hev hc)
        (fun d hd => evolves_resolvable hev (hr d (List.mem_cons_of_mem dep hd)))
      cases hrec2 : detect_cycle_deps_with f rest ns1 buf p with
      | error e2 =>
        dsimp only
        rw [hrec2] at hrec
        exact hrec
      | ok pr2 =>
        obtain ⟨cs2, ns2⟩ := pr2
        rfl

/-- One detect_cycle step never raises the unresolved-dependency panic on a
closed graph, given the recursive callee never does. -/
theorem step_no_lf
    (f : List Node → List Node → Node → Except DcError (List Cycle × List Node))
    (hfe : ∀ nodes buf node cs ns, f nodes buf node = Except.ok (cs, ns) → evolves nodes ns)
    (hf : ∀ nodes buf node, closed_graph nodes →
      (∀ d ∈ node.dependencies, ∃ m ∈ nodes, m.name = d.name) →
      is_lookup_fail (f nodes buf node) = false)
    (nodes buf : List Node) (node : Node) (hc : closed_graph nodes)
    (hr : ∀ d ∈ node.dependencies, ∃ m ∈ nodes, m.name = d.name) :
    is_lookup_fail (detect_cycle_step f nodes buf node) = false := by
  by_cases hcut : (node.is_processed && buf.any (fun b => b.name == node.name)) = true
  · simp only [detect_cycle_step, hcut, if_true]
    rfl
  · simp only [detect_cycle_step, hcut, if_false, Bool.false_eq_true]
    have hevm := mark_first_evolves nodes node.name
    refine deps_with_no_lf f hfe hf _ _ _ _ (evolves_closed hevm hc) ?_
    intro d hd
    exact evolves_resolvable hevm (hr d (List.mem_filter.mp hd).1)

/-- Runs of detect_cycle on a closed graph never raise the
unresolved-dependency panic, whatever the fuel. -/
theorem detect_cycle_no_lf :
    ∀ (fuel : Nat) (nodes buf : List Node) (node : Node), closed_graph nodes →
      (∀ d ∈ node.dependencies, ∃ m ∈ nodes, m.name = d.name) →
      is_lookup_fail (detect_cycle fuel nodes buf node) = false
  | 0, _, _, _, _, _ => rfl
  | fuel + 1, nodes, buf, node, hc, hr =>
    step_no_lf (detect_cycle fuel) (detect_cycle_evolves fuel)
      (detect_cycle_no_lf fuel) nodes buf node hc hr

/-- Dependency fold never runs out of fuel while the pending count stays below
the budget of the recursive callee. -/
theorem deps_with_no_fo
    (fuel : Nat)
    (f : List Node → List Node → Node → Except DcError (List Cycle × List Node))
    (hfe : ∀ nodes buf node cs ns, f nodes buf node = Except.ok (cs, ns) → evolves nodes ns)
    (hf : ∀ nodes buf node, nodes.find? (fun n => n.name == node.name) = some node →
      pending nodes buf < fuel → is_fuel_out (f nodes buf node) = false) :
    ∀ (deps : List Dependency) (nodes buf : List Node) (p : String),
      pending nodes buf < fuel →
      is_fuel_out (detect_cycle_deps_with f deps nodes buf p) = false
  | [], _, _, _, _ => rfl
  | dep :: rest, nodes, buf, p, hp => by
    simp only [detect_cycle_deps_with]
    cases hfind : nodes.find? (fun n => n.name == dep.name) with
    | none => rfl
    | some dep_node =>
      dsimp only
      have hself := find_self_name hfind
      cases hcall : f nodes buf dep_node with
      | error e =>
        dsimp only
        have := hf nodes buf dep_node hself hp
        rw [hcall] at this
        exact this
      | ok pr =>
        obtain ⟨cs1, ns1⟩ := pr
        dsimp only
        have hev : evolves nodes ns1 := hfe nodes buf dep_node cs1 ns1 hcall
        have hp1 : pending ns1 buf < fuel :=
          Nat.lt_of_le_of_lt (pending_anti_evolves hev buf) hp
        have hrec := deps_with_no_fo fuel f hfe hf rest ns1 buf p hp1
        cases hrec2 : detect_cycle_deps_with f rest ns1 buf p with
        | error e2 =>
          dsimp only
          rw [hrec2] at hrec
          exact hrec
        | ok pr2 =>
          obtain ⟨cs2, ns2⟩ := pr2
          rfl

/-- One detect_cycle step never runs out of fuel when started at a node of
the list with a pending count below the budget plus one. -/
theorem step_no_fo
    (fuel : Nat)
    (f : List Node → List Node → Node → Except DcError (List Cycle × List Node))
    (hfe : ∀ nodes buf node cs ns, f nodes buf node = Except.ok (cs, ns) → evolves nodes ns)
    (hf : ∀ nodes buf node, nodes.find? (fun n => n.name == node.name) = some node →
      pending nodes buf < fuel → is_fuel_out (f nodes buf node) = false)
    (nodes buf : List Node) (node : Node)
    (hfind : nodes.find? (fun n => n.name == node.name) = some node)
    (hp : pending nodes buf < fuel + 1) :
    is_fuel_out (detect_cycle_step f nodes buf node) = false := by
  by_cases hcut : (node.is_processed && buf.any (fun b => b.name == node.name)) = true
  · simp only [detect_cycle_step, hcut, if_true]
    rfl
  · simp only [detect_cycle_step, hcut, if_false, Bool.false_eq_true]
    have hcut0 : cut_ready buf node = false := by
      cases hh : cut_ready buf node
      · rfl
      · exact absurd hh hcut
    have hlt := pending_mark_push_lt nodes buf node hfind hcut0
    exact deps_with_no_fo fuel f hfe hf _ _ _ _ (by omega)

/-- Runs of detect_cycle started at a node of the list never run out of fuel
while the pending count stays below the fuel. -/
theorem detect_cycle_no_fo :
    ∀ (fuel : Nat) (nodes buf : List Node) (node : Node),
      nodes.find? (fun n => n.name == node.name) = some node →
      pending nodes buf < fuel → is_fuel_out (detect_cycle fuel nodes buf node) = false
  | 0, _, buf, _, _, hp => absurd hp (by omega)
  | fuel + 1, nodes, buf, node, hfind, hp =>
    step_no_fo fuel (detect_cycle fuel) (detect_cycle_evolves fuel)
      (detect_cycle_no_fo fuel) nodes buf node hfind hp

/-- Membership after one HashSet insertion comes from the set or the element. -/
theorem mem_hashset_insert_dep {acc : List Dependency} {x d : Dependency}
    (h : d ∈ hashset_insert_dep acc x) : d ∈ acc ∨ d = x := by
  by_cases hx : x ∈ acc
  · rw [hashset_insert_dep, if_pos hx] at h
    exact Or.inl h
  · rw [hashset_insert_dep, if_neg hx] at h
    rcases List.mem_append.mp h with h | h
    · exact Or.inl h
    · exact Or.inr (List.mem_singleton.mp h)

/-- Membership survives one HashSet insertion. -/
theorem insert_dep_mem {acc : List Dependency} {x d : Dependency} (h : d ∈ acc ∨ d = x) :
    d ∈ hashset_insert_dep acc x := by
  by_cases hx : x ∈ acc
  · rw [hashset_insert_dep, if_pos hx]
    rcases h with h | rfl
    · exact h
    · exact hx
  · rw [hashset_insert_dep, if_neg hx]
    rcases h with h | rfl
    · exact List.mem_append_left _ h
    · exact List.mem_append_right _ (List.mem_singleton.mpr rfl)

/-- Membership in the HashSet fold equals membership in seed or input. -/
theorem mem_foldl_insert_dep : ∀ (l acc : List Dependency) (d : Dependency),
    d ∈ l.foldl hashset_insert_dep acc ↔ d ∈ acc ∨ d ∈ l
  | [], acc, d => by simp
  | x :: xs, acc, d => by
    simp only [List.foldl_cons]
    rw [mem_foldl_insert_dep xs (hashset_insert_dep acc x) d]
    constructor
    · rintro (h | h)
      · rcases mem_hashset_insert_dep h with h | rfl
        · exact Or.inl h
        · exact Or.inr (List.mem_cons_self _ _)
      · exact Or.inr (List.mem_cons_of_mem x h)
    · rintro (h | h)
      · exact Or.inl (insert_dep_mem (Or.inl h))
      · rcases List.mem_cons.mp h with rfl | h
        · exact Or.inl (insert_dep_mem (Or.inr rfl))
        · exact Or.inr h

/-- Collecting into a HashSet neither drops nor invents elements. -/
theorem mem_hashset_from_list_iff (l : List Dependency) (d : Dependency) :
    d ∈ hashset_from_list l ↔ d ∈ l := by
  rw [hashset_from_list, mem_foldl_insert_dep]
  simp

/-- Every edge built for a crate targets a workspace crate name. -/
theorem build_deps_target {crate_names : List String} {cm : CrateMetadata}
    {d : Dependency} (h : d ∈ build_deps crate_names cm) :
    crate_names.any (fun n => n == d.name) = true := by
  simp only [build_deps] at h
  rw [mem_hashset_from_list_iff] at h
  exact (List.mem_filter.mp h).2

/-- build_nodes always produces a closed graph: every edge of every node
resolves to a node of the output. -/
theorem build_nodes_closed (cs : List CrateMetadata) : closed_graph (build_nodes cs) := by
  intro n hn d hd
  simp only [build_nodes, List.mem_map] at hn
  obtain ⟨cm, hcm, rfl⟩ := hn
  have hq := build_deps_target
    (show d ∈ build_deps (cs.map (fun c => c.name)) cm from hd)
  rw [List.any_eq_true] at hq
  obtain ⟨nm, hnm, hbeq⟩ := hq
  rw [beq_iff_eq] at hbeq
  rw [List.mem_map] at hnm
  obtain ⟨cm', hcm', rfl⟩ := hnm
  refine ⟨Node.mk cm'.name (build_deps (cs.map (fun c => c.name)) cm') State.NotProcessed,
    ?_, hbeq⟩
  simp only [build_nodes, List.mem_map]
  exact ⟨cm', hcm', rfl⟩

/-- Root walks on a closed graph never raise the unresolved-dependency panic. -/
theorem root_no_lf (fuel : Nat) (orig : List Node) (r : Nat) (hc : closed_graph orig) :
    is_lookup_fail (detect_cycle_root fuel orig r) = false := by
  simp only [detect_cycle_root]
  cases hget : orig.get? r with
  | none => rfl
  | some root =>
    dsimp only
    by_cases hcut :
        (root.is_processed && ([] : List Node).any (fun b => b.name == root.name)) = true
    · simp only [hcut, if_true]
      rfl
    · simp only [hcut, if_false, Bool.false_eq_true]
      have hmem : root ∈ orig := List.get?_mem hget
      have hlf := deps_with_no_lf (detect_cycle fuel) (detect_cycle_evolves fuel)
        (detect_cycle_no_lf fuel) root.dependencies orig [root.mark_processed] root.name
        hc (fun d hd => hc root hmem d hd)
      cases hres : detect_cycle_deps_with (detect_cycle fuel) root.dependencies orig
          [root.mark_processed] root.name with
      | error e =>
        dsimp only
        rw [hres] at hlf
        exact hlf
      | ok pr =>
        obtain ⟨cycles, cl⟩ := pr
        rfl

/-- Root walks only evolve the threaded original list: the single change is
the mark of the root entry. -/
theorem root_evolves (fuel : Nat) (orig : List Node) (r : Nat) (cs : List Cycle)
    (orig' : List Node) (h : detect_cycle_root fuel orig r = Except.ok (cs, orig')) :
    evolves orig orig' := by
  simp only [detect_cycle_root] at h
  cases hget : orig.get? r with
  | none =>
    rw [hget] at h
    dsimp only at h
    simp only [Except.ok.injEq, Prod.mk.injEq] at h
    rw [← h.2]
    exact evolves_refl orig
  | some root =>
    rw [hget] at h
    dsimp only at h
    by_cases hcut :
        (root.is_processed && ([] : List Node).any (fun b => b.name == root.name)) = true
    · simp only [hcut, if_true, Except.ok.injEq, Prod.mk.injEq] at h
      rw [← h.2]
      exact evolves_refl orig
    · simp only [hcut, if_false, Bool.false_eq_true] at h
      cases hres : detect_cycle_deps_with (detect_cycle fuel) root.dependencies orig
          [root.mark_processed] root.name with
      | error e =>
        rw [hres] at h
        exact Except.noConfusion h
      | ok pr =>
        obtain ⟨cycles, cl⟩ := pr
        rw [hres] at h
        dsimp only at h
        simp only [Except.ok.injEq, Prod.mk.injEq] at h
        rw [← h.2]
        exact set_mark_evolves orig r root hget

/-- Iterated root walks on a closed graph never raise the
unresolved-dependency panic. -/
theorem go_no_lf : ∀ (count fuel : Nat) (orig : List Node) (r : Nat),
    closed_graph orig → is_lookup_fail (detect_cycles_go fuel orig r count) = false
  | 0, _, _, _, _ => rfl
  | count + 1, fuel, orig, r, hc => by
    simp only [detect_cycles_go]
    cases hroot : detect_cycle_root fuel orig r with
    | error e =>
      dsimp only
      have := root_no_lf fuel orig r hc
      rw [hroot] at this
      exact this
    | ok pr =>
      obtain ⟨cs1, orig'⟩ := pr
      dsimp only
      have hev := root_evolves fuel orig r cs1 orig' hroot
      have hrec := go_no_lf count fuel orig' (r + 1) (evolves_closed hev hc)
      cases hrec2 : detect_cycles_go fuel orig' (r + 1) count with
      | error e2 =>
        dsimp only
        rw [hrec2] at hrec
        exact hrec
      | ok pr2 =>
        obtain ⟨cs2, o2⟩ := pr2
        rfl

/-- Claim C7: on a node list produced by build_nodes, the panic branch of
detect_cycle for an unresolvable dependency edge is unreachable: whatever the
fuel, detect_cycles_all never returns the lookup-failure outcome, because
every traversed edge resolves by the closedness that build_nodes enforces. -/
theorem detect_cycles_all_never_panics (fuel : Nat) (cs : List CrateMetadata) :
    is_lookup_fail (detect_cycles_all fuel (build_nodes cs)) = false := by
  simp only [detect_cycles_all]
  cases hgo : detect_cycles_go fuel (build_nodes cs) 0 (build_nodes cs).length with
  | error e =>
    dsimp only
    have := go_no_lf (build_nodes cs).length fuel (build_nodes cs) 0 (build_nodes_closed cs)
    rw [hgo] at this
    cases e with
    | fuelOut => rfl
    | lookupFail p d => simp [is_lookup_fail] at this
  | ok pr =>
    obtain ⟨cycles, o⟩ := pr
    rfl

/-- Claim C6: for every input collection of crate records, every dependency
edge of every node produced by build_nodes targets the name of some node of
the output, every state cell starts as NotProcessed, and a declared self
dependency of either kind is preserved as an edge of the crate node. -/
theorem build_nodes_invariants (cs : List CrateMetadata) :
    (∀ n ∈ build_nodes cs, n.state = State.NotProcessed ∧
      ∀ d ∈ n.dependencies, ∃ m ∈ build_nodes cs, m.name = d.name) ∧
    (∀ cm ∈ cs,
      (cm.name ∈ cm.dependencies →
        ∃ n ∈ build_nodes cs, n.name = cm.name ∧
          Dependency.mk cm.name DependencyType.Regular ∈ n.dependencies) ∧
      (cm.name ∈ cm.dev_dependencies →
        ∃ n ∈ build_nodes cs, n.name = cm.name ∧
          Dependency.mk cm.name DependencyType.Dev ∈ n.dependencies)) := by
  constructor
  · intro n hn
    refine ⟨?_, fun d hd => build_nodes_closed cs n hn d hd⟩
    simp only [build_nodes, List.mem_map] at hn
    obtain ⟨cm, hcm, rfl⟩ := hn
    rfl
  · intro cm hcm
    have hnode :
        Node.mk cm.name (build_deps (cs.map (fun c => c.name)) cm) State.NotProcessed ∈
          build_nodes cs := by
      simp only [build_nodes, List.mem_map]
      exact ⟨cm, hcm, rfl⟩
    have hname : cm.name ∈ cs.map (fun c => c.name) := List.mem_map_of_mem _ hcm
    constructor
    · intro hself
      refine ⟨Node.mk cm.name (build_deps (cs.map (fun c => c.name)) cm) State.NotProcessed,
        hnode, rfl, ?_⟩
      show Dependency.mk cm.name DependencyType.Regular ∈
        build_deps (cs.map (fun c => c.name)) cm
      simp only [build_deps]
      rw [mem_hashset_from_list_iff, List.mem_filter]
      refine ⟨List.mem_append_left _ (List.mem_map_of_mem _ hself), ?_⟩
      rw [List.any_eq_true]
      exact ⟨cm.name, hname, by simp⟩
    · intro hself
      refine ⟨Node.mk cm.name (build_deps (cs.map (fun c => c.name)) cm) State.NotProcessed,
        hnode, rfl, ?_⟩
      show Dependency.mk cm.name DependencyType.Dev ∈
        build_deps (cs.map (fun c => c.name)) cm
      simp only [build_deps]
      rw [mem_hashset_from_list_iff, List.mem_filter]
      refine ⟨List.mem_append_right _ (List.mem_map_of_mem _ hself), ?_⟩
      rw [List.any_eq_true]
      exact ⟨cm.name, hname, by simp⟩

/-- Witness for claim C6: the self-edge invariant applied to the concrete
workspace with one crate depending on itself. -/
theorem build_nodes_invariants_witness :
    ∃ n ∈ build_nodes crates_self, n.name = "A" ∧
      Dependency.mk "A" DependencyType.Regular ∈ n.dependencies :=
  ((build_nodes_invariants crates_self).2 (CrateMetadata.mk "A" ["A"] [])
    (by decide)).1 (by decide)

/-- Claim C10, amended: detect_cycle terminates for every finite node list,
path buffer and starting node: a fuel budget of the node count plus two is
never exhausted, because every non-cut visit strictly lowers the number of
nodes that do not yet pass the cut test, and that number is at most the node
count. -/
theorem detect_cycle_terminates (nodes node_buffer : List Node) (node : Node)
    (fuel : Nat) (h : nodes.length + 2 ≤ fuel) :
    is_fuel_out (detect_cycle fuel nodes node_buffer node) = false := by
  cases fuel with
  | zero => omega
  | succ f =>
    show is_fuel_out (detect_cycle_step (detect_cycle f) nodes node_buffer node) = false
    by_cases hcut :
        (node.is_processed && node_buffer.any (fun b => b.name == node.name)) = true
    · simp only [detect_cycle_step, hcut, if_true]
      rfl
    · simp only [detect_cycle_step, hcut, if_false, Bool.false_eq_true]
      refine deps_with_no_fo f (detect_cycle f) (detect_cycle_evolves f)
        (detect_cycle_no_fo f) _ _ _ _ ?_
      have h1 := pending_le_length (mark_first nodes node.name)
        (node_buffer ++ [node.mark_processed])
      rw [mark_first_length] at h1
      omega

/-- Witness for claim C10: the termination bound applied to the two-crate
loop with fuel four. -/
theorem detect_cycle_terminates_witness :
    (build_nodes crates_ab).length + 2 ≤ 4 ∧
    is_fuel_out (detect_cycle 4 (build_nodes crates_ab) []
        (Node.mk "A" [Dependency.mk "B" DependencyType.Regular] State.NotProcessed)) =
      false :=
  ⟨by decide, detect_cycle_terminates (build_nodes crates_ab) []
    (Node.mk "A" [Dependency.mk "B" DependencyType.Regular] State.NotProcessed) 4
    (by decide)⟩

/-- Entry processing of read_crates aborts at the first parsed manifest
without a package name, reporting its manifest path. -/
theorem go_missing : ∀ (pre : List DirEntry) (e : DirEntry) (post : List DirEntry),
    (∀ x ∈ pre, missing_name x = false) → missing_name e = true →
    read_crates_go (pre ++ e :: post) =
      Except.error (ReadError.missing_package (manifest_path_of e))
  | [], e, post, _, he => by
    cases e with
    | mk dn mf =>
      cases mf with
      | absent => simp [missing_name] at he
      | unparseable => simp [missing_name] at he
      | parsed pn deps dd =>
        cases pn with
        | none => rfl
        | some nm => simp [missing_name] at he
  | x :: pre, e, post, hpre, he => by
    have hx : missing_name x = false := hpre x (List.mem_cons_self x pre)
    have hrec := go_missing pre e post (fun y hy => hpre y (List.mem_cons_of_mem x hy)) he
    cases x with
    | mk dn mf =>
      cases mf with
      | absent =>
        simp only [List.cons_append, read_crates_go]
        exact hrec
      | unparseable =>
        simp only [List.cons_append, read_crates_go]
        exact hrec
      | parsed pn deps dd =>
        cases pn with
        | none => simp [missing_name] at hx
        | some nm =>
          simp only [List.cons_append, read_crates_go, List.append_eq]
          rw [hrec]

/-- Entry processing of read_crates treats an unparseable manifest exactly as
an absent entry: the run continues as if the entry were not there. -/
theorem go_unparseable_skip : ∀ (pre post : List DirEntry) (e : DirEntry),
    e.manifest = ManifestFile.unparseable →
    read_crates_go (pre ++ e :: post) = read_crates_go (pre ++ post)
  | [], post, e, he => by
    cases e with
    | mk dn mf =>
      simp only at he
      subst he
      rfl
  | x :: pre, post, e, he => by
    have hrec := go_unparseable_skip pre post e he
    cases x with
    | mk dn mf =>
      cases mf with
      | absent =>
        simp only [List.cons_append, read_crates_go]
        exact hrec
      | unparseable =>
        simp only [List.cons_append, read_crates_go]
        exact hrec
      | parsed pn deps dd =>
        cases pn with
        | none => rfl
        | some nm =>
          simp only [List.cons_append, read_crates_go, List.append_eq]
          rw [hrec]

/-- Claim C9, amended: an unreadable root directory aborts the run at once
with the io error; the first manifest that parses but lacks a package name
aborts the run reporting its manifest path; a manifest that is present but
unparseable is silently skipped and the run continues as if the entry were
absent. -/
theorem read_crates_abort_contract :
    (∀ msg : String, read_crates (Except.error msg) =
      Except.error (ReadError.io_error msg)) ∧
    (∀ (pre : List DirEntry) (e : DirEntry) (post : List DirEntry),
      (∀ x ∈ pre, missing_name x = false) → missing_name e = true →
      read_crates (Except.ok (pre ++ e :: post)) =
        Except.error (ReadError.missing_package (manifest_path_of e))) ∧
    (∀ (pre post : List DirEntry) (e : DirEntry),
      e.manifest = ManifestFile.unparseable →
      read_crates (Except.ok (pre ++ e :: post)) = read_crates (Except.ok (pre ++ post))) :=
  ⟨fun _ => rfl,
   fun pre e post h1 h2 => go_missing pre e post h1 h2,
   fun pre post e he => go_unparseable_skip pre post e he⟩

/-- Witness for claim C9: the abort contract applied to a listing with one
unparseable entry followed by a parsed manifest without a package name. -/
theorem read_crates_abort_contract_witness :
    read_crates (Except.ok [DirEntry.mk "a" ManifestFile.unparseable,
        DirEntry.mk "b" (ManifestFile.parsed none [] [])]) =
      Except.error (ReadError.missing_package "b/Cargo.toml") :=
  read_crates_abort_contract.2.1 [DirEntry.mk "a" ManifestFile.unparseable]
    (DirEntry.mk "b" (ManifestFile.parsed none [] [])) [] (by decide) (by decide)

/-- Claim C2: the cycle equality check sorts both cloned node vectors and
compares the results of the sort calls; Vec::sort returns unit, so the
comparison is between two unit values and cycleEq returns true for every pair
of cycles, regardless of their contents. -/
theorem cycleEq_always_true (a b : Cycle) : cycleEq a b = true := by
  rfl

/-- Claim C1, evaluation at the failing input: on the workspace with the loop
A to B to A plus a crate C holding regular edges into both A and B, the
deduplicated result of detect_cycles_all keeps C, A, B and C, B, A as TWO
separate entries although both contain the same multiset of package names:
the derived hash is order sensitive, so the two records land in different
buckets and the degenerate equality is never consulted across them. -/
theorem detect_cycles_all_keeps_same_multiset_twice :
    cycles_names (detect_cycles_all 9 (build_nodes crates_abc)) =
      Except.ok [["A", "B", "A"], ["B", "A", "B"], ["C", "A", "B"], ["C", "B", "A"]] ∧
    (["C", "A", "B"] : Multiset String) = (["C", "B", "A"] : Multiset String) := by
  exact ⟨by rfl, by decide⟩

/-- Claim C3, evaluation at the failing input: after the first root walk of
the two-crate loop, the threaded original list, which is exactly the list the
second root walk clones, already holds node A in state Processed, so the walk
rooted at B does not observe a freshly reset visitation state. -/
theorem root_walk_marks_leak_to_next_walk :
    (detect_cycle_root 9 (build_nodes crates_ab) 0).map
        (fun p => p.2.map (fun n => (n.name, n.state))) =
      Except.ok [("A", State.Processed), ("B", State.NotProcessed)] := by
  rfl

/-- Claim C4, evaluation at the failing input: on the two-crate loop the
detector returns two cycle records of three entries each, A, B, A and
B, A, B, instead of the single two-node cycle with membership A, B that the
claim states. -/
theorem two_crate_loop_yields_two_three_entry_cycles :
    cycles_names (detect_cycles_all 9 (build_nodes crates_ab)) =
      Except.ok [["A", "B", "A"], ["B", "A", "B"]] := by
  rfl

/-- Claim C5, evaluation at the failing input: on the workspace where A has
only a dev edge to B, B regularly depends on C, and C regularly depends on A,
the detector reports NO cycle from any root: the walk rooted at A re-enters A
through its clone, whose state cell never received the root mark, so the cut
does not fire and the dev edge is then filtered at depth three. -/
theorem dev_edge_workspace_yields_no_cycle :
    cycles_names (detect_cycles_all 9 (build_nodes crates_dev)) = Except.ok [] := by
  rfl

/-- Claim C8, evaluation at the failing input: a crate depending on itself
produces one cycle record with TWO entries A, A, not the one-node cycle the
claim states, and the presentation gate of print_cycles consequently keeps it
rather than suppressing it. -/
theorem self_dep_yields_two_entry_cycle :
    cycles_names (detect_cycles_all 9 (build_nodes crates_self)) =
      Except.ok [["A", "A"]] ∧
    (detect_cycles_all 9 (build_nodes crates_self)).map
        (fun cs => (print_cycles_kept cs).map (fun c => c.nodes.map (fun n => n.name))) =
      Except.ok [["A", "A"]] := by
  exact ⟨by rfl, by rfl⟩

/-- Claim C9, counterexample: a directory entry whose manifest is present but
unparseable is silently skipped by read_crates, which returns successfully
with the entry dropped instead of aborting the run, contrary to the claim. -/
theorem unparseable_manifest_is_skipped :
    read_crates (Except.ok [DirEntry.mk "pkg1" ManifestFile.unparseable]) =
      Except.ok [] := by
  rfl

/-- Claim C10, counterexample: on the two-crate loop the graph has two
distinct node names, yet a detect_cycle call chain started at node A with an
empty buffer exhausts a fuel budget of two, where each unit of fuel pays for
exactly one detect_cycle invocation; the recursion depth therefore exceeds
the number of distinct node names. -/
theorem detect_cycle_depth_exceeds_distinct_names :
    distinct_names (build_nodes crates_ab) = 2 ∧
    is_fuel_out (detect_cycle 2 (build_nodes crates_ab) []
        (Node.mk "A" [Dependency.mk "B" DependencyType.Regular] State.NotProcessed)) =
      true := by
  exact ⟨by decide, by decide⟩

end CargoWorkgraph
